import Mathlib

/-!
Shallow embedding of the trading bot's connection / fetch / cache / scan
subsystem (`scanner.py`, `ibkr.py`).

External effects (broker responses, the wall clock, the persisted parquet
file) are passed in explicitly as function arguments; monetary values are
modelled as rationals; calendar dates are modelled as integer day ordinals
with day `d` having weekday `d % 7` (0 = Monday ... 6 = Sunday, matching
Python's `date.weekday()`).
-/

namespace TradingBot

/-! ## Calendar (`scanner.py`: `prev_business_day`, `expected_cache_date_ny`) -/

/-- `prev_business_day` from `scanner.py`: Monday rolls back three days to
Friday, Sunday rolls back two days to Friday, every other weekday (including
Saturday) rolls back one calendar day. -/
def prev_business_day (d : ℤ) : ℤ :=
  if d % 7 = 0 then d - 3
  else if d % 7 = 6 then d - 2
  else d - 1

/-- An Eastern-time clock instant: day ordinal plus minute of the day. -/
structure NYTime where
  day : ℤ
  minute : ℕ
  deriving DecidableEq

/-- The 16:15 market-close cutoff, in minutes after midnight. -/
def marketCloseCutoff : ℕ := 16 * 60 + 15

/-- `expected_cache_date_ny` from `scanner.py`: today when the clock is at or
after 16:15 Eastern, otherwise the previous business day. -/
def expected_cache_date_ny (now : NYTime) : ℤ :=
  if marketCloseCutoff ≤ now.minute then now.day else prev_business_day now.day

/-- `e` is the preceding Friday of `d`: the greatest day before `d` whose
weekday is Friday. -/
def isPrecedingFriday (d e : ℤ) : Prop :=
  e < d ∧ e % 7 = 4 ∧ ∀ x : ℤ, e < x → x < d → x % 7 ≠ 4

/-! ## Historical SMA fetch (`scanner.py`: `get_sma_and_last_price`) -/

/-- One daily bar: calendar date (day ordinal) and closing price. -/
structure Bar where
  date : ℕ
  close : ℚ
  deriving DecidableEq

/-- Bars compare by date (the `sort_values("date")` key). -/
def barLE (a b : Bar) : Prop := a.date ≤ b.date

instance : DecidableRel barLE := fun a b => Nat.decLe a.date b.date

instance : IsTotal Bar barLE := ⟨fun a b => Nat.le_total a.date b.date⟩

instance : IsTrans Bar barLE := ⟨fun _ _ _ h1 h2 => Nat.le_trans h1 h2⟩

/-- `df.sort_values("date")`: sort the bars by date ascending. -/
def sortBars (bars : List Bar) : List Bar := bars.insertionSort barLE

/-- Executable floor of a rational (`num / den` with floor division). -/
def floorQ (q : ℚ) : ℤ := Int.fdiv q.num q.den

/-- Python's `round(x, 2)`: round to two decimal places, here as round-half-up
`⌊q·100 + 1/2⌋ / 100` (Python rounds floats half-to-even; no claim depends on
the tie-breaking mode, only on "rounded to 2 decimal places"). -/
def round2 (q : ℚ) : ℚ := (floorQ (q * 100 + 1 / 2) : ℚ) / 100

/-- The last `n` elements of a list. -/
def lastN (n : ℕ) (xs : List α) : List α := xs.drop (xs.length - n)

/-- `df["close"].rolling(window=l).mean().iloc[-1]` rounded to 2 decimals:
the mean of the trailing `l` closes. -/
def smaOf (closes : List ℚ) (l : ℕ) : ℚ := round2 ((lastN l closes).sum / l)

/-- The default SMA windows `(50, 100, 200)`. -/
def defaultLengths : List ℕ := [50, 100, 200]

/-- The triple returned by `get_sma_and_last_price`.  `lastPrice = none` and
`lastBarDate = none` encode Python's `None` and `""` failure markers. -/
structure SmaFetchResult where
  lastPrice : Option ℚ
  smas : List (ℕ × ℚ)
  lastBarDate : Option ℕ
  deriving DecidableEq

/-- `get_sma_and_last_price` from `scanner.py`.  The broker's historical-bars
response is an explicit argument: `none` models an exception anywhere in the
body, `some bars` the delivered bar list (possibly empty).  On failure the
function returns the `(None, {}, "")` triple; otherwise it sorts bars by
date, takes the final close and date, and computes the trailing SMA for each
window `l` with at least `l` bars. -/
def get_sma_and_last_price (hist : Option (List Bar))
    (lengths : List ℕ) : SmaFetchResult :=
  match hist with
  | none => ⟨none, [], none⟩
  | some bars =>
    if bars = [] then ⟨none, [], none⟩
    else
      let sorted := sortBars bars
      let closes := sorted.map Bar.close
      let smas := lengths.filterMap fun l =>
        if l ≤ sorted.length then some (l, smaOf closes l) else none
      ⟨sorted.getLast?.map Bar.close, smas, sorted.getLast?.map Bar.date⟩

/-! ## Daily cache build (`scanner.py`: `build_sma_cache`) -/

/-- One row of the persisted SMA cache table.  `none` in an SMA column models
a null/NaN cell (window never reached); `cache_date` is the ticker's actual
last bar date. -/
structure CacheRecord where
  ticker : String
  sma50 : Option ℚ
  sma100 : Option ℚ
  sma200 : Option ℚ
  cache_date : Option ℕ
  deriving DecidableEq

/-- The record appended for ticker `t` inside the rebuild loop: kept only when
the SMA mapping is non-empty (`if smas:`), with `smas.get(50/100/200)` and the
last bar date. -/
def recordOf (t : String) (r : SmaFetchResult) : Option CacheRecord :=
  if r.smas = [] then none
  else some ⟨t, r.smas.lookup 50, r.smas.lookup 100, r.smas.lookup 200, r.lastBarDate⟩

/-- The `records` list accumulated by the rebuild loop.  The per-call fetch
result is an explicit oracle `fetch i t` giving the outcome of the `i`-th
iteration (two calls for the same ticker may observe different data). -/
def buildRecords (fetch : ℕ → String → SmaFetchResult) (tickers : List String) :
    List CacheRecord :=
  tickers.enum.filterMap fun p => recordOf p.2 (fetch p.1 p.2)

/-- Keep-first deduplication by ticker, skipping records whose ticker was
already seen. -/
def dropDupFirstAux (seen : List String) : List CacheRecord → List CacheRecord
  | [] => []
  | r :: rs =>
    if r.ticker ∈ seen then dropDupFirstAux seen rs
    else r :: dropDupFirstAux (r.ticker :: seen) rs

/-- `DataFrame.drop_duplicates(subset=["ticker"])` with the default
`keep="first"`: the first record with a given ticker survives, later ones are
dropped, order preserved. -/
def dropDupFirst (l : List CacheRecord) : List CacheRecord := dropDupFirstAux [] l

/-- Row lookup by ticker (`cache.loc[sym]` / `t in cache.index` on a
unique-keyed table: the first matching row). -/
def cacheLookup (cache : List CacheRecord) (t : String) : Option CacheRecord :=
  cache.find? fun r => r.ticker == t

/-- `build_sma_cache` from `scanner.py`, with file I/O abstracted: the parsed
universe comes in as `tickers` and the written table is returned as the `ok`
payload.  Raises (`error`) when no ticker produced an SMA result. -/
def build_sma_cache (fetch : ℕ → String → SmaFetchResult) (tickers : List String) :
    Except String (List CacheRecord) :=
  let records := buildRecords fetch tickers
  if records = [] then Except.error "No SMAs computed; cache would be empty."
  else Except.ok (dropDupFirst records)

/-- The rebuild's effect on the persisted cache file: on error the file is
left untouched (the raise happens before `to_parquet`), on success the new
table replaces it.  The boolean reports whether the rebuild raised. -/
def rebuild_persist (fetch : ℕ → String → SmaFetchResult) (tickers : List String)
    (prev : Option (List CacheRecord)) : Option (List CacheRecord) × Bool :=
  match build_sma_cache fetch tickers with
  | Except.error _ => (prev, true)
  | Except.ok table => (some table, false)

/-! ## Snapshot batch (`scanner.py`: `_snapshot_batch`) -/

/-- What the broker interaction yields for one symbol of a batch:
`reqError` models an exception while issuing the snapshot request (the symbol
never reaches the harvest phase), `readError` an exception in
`tkr.marketPrice()`, `nan` a NaN price, and `val p` a delivered price `p`
(possibly `0.0`, the "no data" sentinel). -/
inductive SnapOutcome where
  | reqError : SnapOutcome
  | readError : SnapOutcome
  | nan : SnapOutcome
  | val : ℚ → SnapOutcome
  deriving DecidableEq

/-- Python-dict insertion: overwrite in place when the key exists, else append. -/
def dictInsert (m : List (String × ℚ)) (k : String) (v : ℚ) : List (String × ℚ) :=
  cond (m.any fun e => e.1 == k)
    (m.map fun e => cond (e.1 == k) (k, v) e)
    (m ++ [(k, v)])

/-- Fuel-indexed chunking: with `b > 0`, fuel at least the list length is
enough to consume the whole list. -/
def chunksGo (b : ℕ) : ℕ → List α → List (List α)
  | 0, _ => []
  | _, [] => []
  | fuel + 1, y :: ys => (y :: ys).take b :: chunksGo b fuel ((y :: ys).drop b)

/-- `range(0, len(tickers), batch_size)` slicing: split into chunks of `b`
(`b = 0` raises in Python; it yields no chunks here and every theorem about
batching assumes `0 < b`). -/
def chunks (b : ℕ) (xs : List α) : List (List α) :=
  if b = 0 then [] else chunksGo b xs.length xs

/-- Whether the request-issuance phase succeeded for a symbol (it was added to
`tickers_objs`). -/
def requestOK (outcome : String → SnapOutcome) (s : String) : Bool :=
  match outcome s with
  | SnapOutcome.reqError => false
  | _ => true

/-- The harvest phase for one symbol: `p = tkr.marketPrice()`, kept only when
`p and p == p` (truthy and not NaN), i.e. a delivered non-zero value. -/
def harvestOne (outcome : String → SnapOutcome) (acc : List (String × ℚ))
    (sym : String) : List (String × ℚ) :=
  match outcome sym with
  | SnapOutcome.reqError => acc
  | SnapOutcome.readError => acc
  | SnapOutcome.nan => acc
  | SnapOutcome.val p => if p = 0 then acc else dictInsert acc sym p

/-- `_snapshot_batch` from `scanner.py`: process the tickers in chunks of
`batchSize`; per chunk, the request phase keeps the symbols whose snapshot
request could be issued, then the harvest phase reads each one's price into
the accumulated symbol-to-price dict. -/
def snapshot_batch (outcome : String → SnapOutcome) (batchSize : ℕ)
    (tickers : List String) : List (String × ℚ) :=
  (chunks batchSize tickers).foldl
    (fun acc batch => (batch.filter (requestOK outcome)).foldl (harvestOne outcome) acc)
    []

/-! ## Intraday scan (`scanner.py`: `scan_with_cache`) -/

/-- One row of the scan result table. -/
structure MatchRow where
  ticker : String
  price : ℚ
  sma50 : ℚ
  sma100 : ℚ
  sma200 : ℚ
  deriving DecidableEq

/-- Descending-price order for the final `sort_values("price", ascending=False)`. -/
def priceDesc (a b : MatchRow) : Prop := b.price ≤ a.price

instance : DecidableRel priceDesc := fun a b => inferInstanceAs (Decidable (b.price ≤ a.price))

instance : IsTotal MatchRow priceDesc := ⟨fun a b => le_total b.price a.price⟩

instance : IsTrans MatchRow priceDesc := ⟨fun _ _ _ h1 h2 => le_trans h2 h1⟩

/-- The pair returned by `scan_with_cache` on success (`matched` is the
`matches` DataFrame of the source). -/
structure ScanResult where
  matched : List MatchRow
  missing : List String
  deriving DecidableEq

/-- The body of the `for sym, price in prices.items()` loop: the row appended
for one priced symbol, present exactly when the cache row exists with all
three SMAs non-null and the price strictly exceeds each. -/
def scanRow (cache : List CacheRecord) (sp : String × ℚ) : Option MatchRow :=
  match cacheLookup cache sp.1 with
  | none => none
  | some row =>
    match row.sma50, row.sma100, row.sma200 with
    | some a, some b, some c =>
      if a < sp.2 ∧ b < sp.2 ∧ c < sp.2 then
        some ⟨sp.1, round2 sp.2, a, b, c⟩
      else none
    | _, _, _ => none

/-- `scan_with_cache` from `scanner.py`: split the universe into cached and
missing tickers, snapshot-fetch live prices for the cached ones, keep the
tickers whose price strictly exceeds all three present SMAs, and sort the
rows by price descending.  The snapshot outcome oracle stands for the broker
side of `_snapshot_batch`.  When zero tickers match, the final
`pd.DataFrame(rows).sort_values("price", ascending=False)` is applied to a
columnless empty DataFrame and raises `KeyError: price`, so the function
returns nothing in that case — modelled as the `error` branch, taken exactly
when `rows` is empty. -/
def scan_with_cache (univ : List String) (cache : List CacheRecord)
    (outcome : String → SnapOutcome) (batchSize : ℕ) : Except String ScanResult :=
  let have_cache := univ.filter fun t => (cacheLookup cache t).isSome
  let missing := univ.filter fun t => !(cacheLookup cache t).isSome
  let prices := snapshot_batch outcome batchSize have_cache
  let rows := prices.filterMap (scanRow cache)
  if rows = [] then Except.error "KeyError: price"
  else Except.ok ⟨rows.insertionSort priceDesc, missing⟩

/-! ## Initial connect (`ibkr.py`: `connect_ib`) -/

/-- The observable outcome of one `_try_connect(cid)` call.  `timeout` and
`err` both surface as `False` (the code catches every exception alike); the
distinction exists only to test cause-sensitivity claims. -/
inductive ConnOutcome where
  | ok : ConnOutcome
  | timeout : ConnOutcome
  | err : ConnOutcome
  deriving DecidableEq

/-- The trace of a `connect_ib` run: `result` is the recorded working
clientId (`none` models the final `RuntimeError`), `attempts` the list of
(attempt index, clientId) pairs tried in order, `sleeps` the seconds slept
after each failed attempt. -/
structure ConnectTrace where
  result : Option ℤ
  attempts : List (ℕ × ℤ)
  sleeps : List ℕ
  deriving DecidableEq

/-- The `for attempt in range(10)` loop of `connect_ib`, with `n` attempts
remaining, current attempt index `a` and current candidate clientId `cid`.
On failure the candidate is incremented exactly after odd-indexed attempts
(`if attempt % 2 == 1: cid += 1`) and `2 + attempt` seconds are slept. -/
def connectLoop (o : ℕ → ℤ → ConnOutcome) : ℕ → ℕ → ℤ → ConnectTrace
  | 0, _, _ => ⟨none, [], []⟩
  | n + 1, a, cid =>
    if o a cid = ConnOutcome.ok then ⟨some cid, [(a, cid)], []⟩
    else
      let cid' := if a % 2 = 1 then cid + 1 else cid
      let rest := connectLoop o n (a + 1) cid'
      ⟨rest.result, (a, cid) :: rest.attempts, (2 + a) :: rest.sleeps⟩

/-- `connect_ib` from `ibkr.py`: up to 10 attempts starting from the base
clientId. -/
def connect_ib (o : ℕ → ℤ → ConnOutcome) (base : ℤ) : ConnectTrace :=
  connectLoop o 10 0 base

/-! ## Reconnect supervisor (`ibkr.py`: `_schedule_reconnect`) -/

/-- The backoff delay sequence of the reconnect worker. -/
def reconnectDelays : List ℕ := [2, 5, 10, 20, 30, 60, 90, 120]

/-- The supervisor's shared state: the lock-protected
`_reconnect_in_progress` flag, plus the number of live worker threads (a
ghost counter for the mutual-exclusion property). -/
structure SupState where
  inProgress : Bool
  active : ℕ
  deriving DecidableEq

/-- Process start: flag clear, no worker running. -/
def supInit : SupState := ⟨false, 0⟩

/-- `_schedule_reconnect`: under the lock, return unchanged when a loop is
already in progress; otherwise set the flag and spawn one worker. -/
def schedule_reconnect (s : SupState) : SupState :=
  if s.inProgress then s else ⟨true, s.active + 1⟩

/-- The atomic events of the supervisor: a disconnect callback invoking
`_schedule_reconnect`, or a worker reaching its final lock-protected
flag-clear (which only happens when its retry loop has terminated). -/
inductive SupEvent where
  | disconnect : SupEvent
  | finish : SupEvent
  deriving DecidableEq

/-- One atomic step of the supervisor state. -/
def supStep (s : SupState) : SupEvent → SupState
  | SupEvent.disconnect => schedule_reconnect s
  | SupEvent.finish => if s.active = 0 then s else ⟨false, s.active - 1⟩

/-- The supervisor state after an arbitrary interleaving of events. -/
def supRun (events : List SupEvent) : SupState := events.foldl supStep supInit

/-- The worker's retry loop body: per delay it retries the last-known
clientId, then its successor, and sleeps the delay when both fail; it stops
at the first success or when the delay list is exhausted.  Returns the
reconnected clientId (if any) and the list of delays actually slept. -/
def reconnectWorker (tryConn : ℕ → ℤ → Bool) (cid : ℤ) :
    ℕ → List ℕ → Option ℤ × List ℕ
  | _, [] => (none, [])
  | round, d :: ds =>
    if tryConn round cid then (some cid, [])
    else if tryConn round (cid + 1) then (some (cid + 1), [])
    else
      let rest := reconnectWorker tryConn cid (round + 1) ds
      (rest.1, d :: rest.2)

/-- The net price contribution of one symbol: `some p` exactly when the
request could be issued and a non-NaN, non-zero price was read. -/
def snapPrice (outcome : String → SnapOutcome) (sym : String) : Option ℚ :=
  match outcome sym with
  | SnapOutcome.val p => if p = 0 then none else some p
  | _ => none

/-- The rebuild loop's fetch when wired to `get_sma_and_last_price` with the
default windows, over a historical-bars oracle. -/
def histFetch (hist : ℕ → String → Option (List Bar)) : ℕ → String → SmaFetchResult :=
  fun i t => get_sma_and_last_price (hist i t) defaultLengths

/-! ## Concrete data used to instantiate the theorems -/

/-- A fetch oracle whose first call yields SMA50 = 1 and whose later calls
yield SMA50 = 2 (two calls for the same ticker observe different data). -/
def fetchFirstSecond : ℕ → String → SmaFetchResult := fun i _ =>
  if i = 0 then ⟨some 1, [(50, 1)], some 10⟩ else ⟨some 2, [(50, 2)], some 11⟩

/-- A fetch oracle that always fails (empty SMA mapping). -/
def fetchAlwaysEmpty : ℕ → String → SmaFetchResult := fun _ _ => ⟨none, [], none⟩

/-- Fifty daily bars, dates 0..49, all closes 0. -/
def bars50 : List Bar := (List.range 50).map fun i => ⟨i, 0⟩

/-- A historical-bars oracle that always delivers `bars50`. -/
def histFifty : ℕ → String → Option (List Bar) := fun _ _ => some bars50

/-- A cache row for ticker "A" with all three SMAs present. -/
def cacheRowA : CacheRecord := ⟨"A", some 1, some 2, some 3, some 0⟩

/-- A snapshot oracle delivering price 10 for "A" and NaN otherwise. -/
def outcomeValTen : String → SnapOutcome := fun s =>
  if s == "A" then SnapOutcome.val 10 else SnapOutcome.nan

/-- A snapshot oracle delivering the falsy price 0.0 for every symbol. -/
def outcomeValZero : String → SnapOutcome := fun _ => SnapOutcome.val 0

/-- A snapshot oracle delivering NaN (no usable price) for every symbol. -/
def outcomeAllNan : String → SnapOutcome := fun _ => SnapOutcome.nan

/-- A connect oracle for which every attempt times out. -/
def allTimeout : ℕ → ℤ → ConnOutcome := fun _ _ => ConnOutcome.timeout

/-- A reconnect-try oracle that always fails. -/
def tryNever : ℕ → ℤ → Bool := fun _ _ => false

/-! ## Helper lemmas: dict and snapshot batch -/

theorem lookup_map_update_self (m : List (String × ℚ)) (k : String) (v : ℚ)
    (h : m.any (fun e => e.1 == k) = true) :
    (m.map fun e => cond (e.1 == k) (k, v) e).lookup k = some v := by
  induction m with
  | nil => simp at h
  | cons e t ih =>
    cases he : (e.1 == k) with
    | true =>
      simp only [List.map_cons, he, cond_true]
      simp [List.lookup]
    | false =>
      simp only [List.any_cons, he, Bool.false_or] at h
      have hk : (k == e.1) = false := by
        cases hx : (k == e.1) with
        | true =>
          have : k = e.1 := eq_of_beq hx
          rw [this, beq_self_eq_true] at he
          exact absurd he (by simp)
        | false => rfl
      simp only [List.map_cons, he, cond_false]
      cases e with
      | mk a b =>
        simp only at hk
        simp [List.lookup, hk, ih h]

theorem lookup_map_update_ne (m : List (String × ℚ)) (k k' : String) (v : ℚ)
    (h : k' ≠ k) :
    (m.map fun e => cond (e.1 == k) (k, v) e).lookup k' = m.lookup k' := by
  induction m with
  | nil => simp
  | cons e t ih =>
    cases e with
    | mk a b =>
      cases he : (a == k) with
      | true =>
        have ha : a = k := eq_of_beq he
        have hk1 : (k' == k) = false := beq_false_of_ne h
        have hk2 : (k' == a) = false := beq_false_of_ne (ha ▸ h)
        simp only [List.map_cons, he, cond_true]
        simp [List.lookup, hk1, hk2, ih]
      | false =>
        simp only [List.map_cons, he, cond_false]
        simp only [List.lookup]
        cases hx : (k' == a) with
        | true => rfl
        | false => exact ih

theorem lookup_append_single (m : List (String × ℚ)) (k k' : String) (v : ℚ) :
    (m ++ [(k, v)]).lookup k' =
      match m.lookup k' with
      | some w => some w
      | none => cond (k' == k) (some v) none := by
  induction m with
  | nil =>
    simp only [List.nil_append, List.lookup]
    cases hx : (k' == k) <;> simp [hx]
  | cons e t ih =>
    cases e with
    | mk a b =>
      simp only [List.cons_append, List.lookup]
      cases hx : (k' == a) with
      | true => rfl
      | false => exact ih

theorem dictInsert_lookup_self (m : List (String × ℚ)) (k : String) (v : ℚ) :
    (dictInsert m k v).lookup k = some v := by
  unfold dictInsert
  cases h : (m.any fun e => e.1 == k) with
  | true =>
    simp only [cond_true]
    exact lookup_map_update_self m k v h
  | false =>
    simp only [cond_false]
    rw [lookup_append_single]
    have : m.lookup k = none := by
      induction m with
      | nil => simp [List.lookup]
      | cons e t ih =>
        cases e with
        | mk a b =>
          simp only [List.any_cons, Bool.or_eq_false_iff] at h
          have hk : (k == a) = false := by
            cases hx : (k == a) with
            | true =>
              have : k = a := eq_of_beq hx
              rw [this] at h
              simp at h
            | false => rfl
          simp only [List.lookup, hk]
          exact ih h.2
    rw [this, beq_self_eq_true]
    rfl

theorem dictInsert_lookup_ne (m : List (String × ℚ)) (k k' : String) (v : ℚ)
    (h : k' ≠ k) : (dictInsert m k v).lookup k' = m.lookup k' := by
  unfold dictInsert
  cases hm : (m.any fun e => e.1 == k) with
  | true =>
    simp only [cond_true]
    exact lookup_map_update_ne m k k' v h
  | false =>
    simp only [cond_false]
    rw [lookup_append_single]
    have hk : (k' == k) = false := beq_false_of_ne h
    cases hx : m.lookup k' with
    | some w => simp
    | none => simp [hk]

theorem harvestOne_lookup_ne (o : String → SnapOutcome) (acc : List (String × ℚ))
    (x sym : String) (h : sym ≠ x) :
    (harvestOne o acc x).lookup sym = acc.lookup sym := by
  unfold harvestOne
  cases o x with
  | reqError => rfl
  | readError => rfl
  | nan => rfl
  | val p =>
    by_cases hp : p = 0
    · simp [hp]
    · simp only [hp, if_false]
      exact dictInsert_lookup_ne acc x sym p h

theorem harvestOne_lookup_self (o : String → SnapOutcome) (acc : List (String × ℚ))
    (sym : String) :
    (harvestOne o acc sym).lookup sym =
      match snapPrice o sym with
      | some p => some p
      | none => acc.lookup sym := by
  unfold harvestOne snapPrice
  cases o sym with
  | reqError => rfl
  | readError => rfl
  | nan => rfl
  | val p =>
    by_cases hp : p = 0
    · simp [hp]
    · simp only [hp, if_false]
      exact dictInsert_lookup_self acc sym p

theorem harvest_foldl_lookup (o : String → SnapOutcome) (ls : List String) :
    ∀ (acc : List (String × ℚ)) (sym : String),
      ((ls.foldl (harvestOne o) acc).lookup sym) =
        match snapPrice o sym with
        | some p => if sym ∈ ls then some p else acc.lookup sym
        | none => acc.lookup sym := by
  induction ls with
  | nil =>
    intro acc sym
    cases hs : snapPrice o sym <;> simp
  | cons x t ih =>
    intro acc sym
    have step : (x :: t).foldl (harvestOne o) acc = t.foldl (harvestOne o) (harvestOne o acc x) := rfl
    rw [step, ih]
    by_cases hx : sym = x
    · subst hx
      cases hs : snapPrice o sym with
      | some p =>
        have := harvestOne_lookup_self o acc sym
        rw [hs] at this
        simp [this, List.mem_cons]
      | none =>
        have := harvestOne_lookup_self o acc sym
        rw [hs] at this
        by_cases hm : sym ∈ t <;> simp [hm, this]
    · have hne := harvestOne_lookup_ne o acc x sym hx
      cases hs : snapPrice o sym with
      | some p =>
        by_cases hm : sym ∈ t
        · simp [hm, List.mem_cons, hx]
        · simp [hm, List.mem_cons, hx, hne]
      | none => simp [hne]

theorem chunksGo_join {b : ℕ} (hb : 0 < b) :
    ∀ (fuel : ℕ) (xs : List α), xs.length ≤ fuel → (chunksGo b fuel xs).flatten = xs := by
  intro fuel
  induction fuel with
  | zero =>
    intro xs hx
    cases xs with
    | nil => rfl
    | cons y ys => simp at hx
  | succ n ih =>
    intro xs hx
    cases xs with
    | nil => rfl
    | cons y ys =>
      simp only [chunksGo, List.flatten_cons]
      have hlen : ((y :: ys).drop b).length ≤ n := by
        simp only [List.length_drop, List.length_cons] at hx ⊢
        omega
      rw [ih ((y :: ys).drop b) hlen]
      exact List.take_append_drop b (y :: ys)

theorem foldl_filter_chunks (g : List (String × ℚ) → String → List (String × ℚ))
    (q : String → Bool) :
    ∀ (L : List (List String)) (init : List (String × ℚ)),
      L.foldl (fun acc batch => (batch.filter q).foldl g acc) init =
        (L.flatten.filter q).foldl g init := by
  intro L
  induction L with
  | nil => intro init; rfl
  | cons batch rest ih =>
    intro init
    simp only [List.foldl_cons, List.flatten_cons, List.filter_append, List.foldl_append]
    exact ih _

theorem snapshot_batch_eq (o : String → SnapOutcome) {b : ℕ} (hb : 0 < b)
    (ts : List String) :
    snapshot_batch o b ts = (ts.filter (requestOK o)).foldl (harvestOne o) [] := by
  unfold snapshot_batch chunks
  rw [if_neg (Nat.pos_iff_ne_zero.mp hb)]
  rw [foldl_filter_chunks]
  rw [chunksGo_join hb ts.length ts le_rfl]

theorem snapPrice_requestOK (o : String → SnapOutcome) (sym : String) (p : ℚ)
    (h : snapPrice o sym = some p) : requestOK o sym = true := by
  unfold snapPrice at h
  unfold requestOK
  cases ho : o sym <;> rw [ho] at h <;> simp at h ⊢

theorem snapshot_batch_lookup (o : String → SnapOutcome) {b : ℕ} (hb : 0 < b)
    (ts : List String) (sym : String) :
    (snapshot_batch o b ts).lookup sym =
      if sym ∈ ts then snapPrice o sym else none := by
  rw [snapshot_batch_eq o hb ts]
  rw [harvest_foldl_lookup]
  cases hs : snapPrice o sym with
  | some p =>
    have hq := snapPrice_requestOK o sym p hs
    by_cases hm : sym ∈ ts
    · simp [List.mem_filter, hm, hq]
    · simp [List.mem_filter, hm, List.lookup]
  | none =>
    simp [List.lookup]

theorem dictInsert_keys_nodup (m : List (String × ℚ)) (k : String) (v : ℚ)
    (h : (m.map Prod.fst).Nodup) : ((dictInsert m k v).map Prod.fst).Nodup := by
  unfold dictInsert
  cases hm : (m.any fun e => e.1 == k) with
  | true =>
    simp only [cond_true]
    have heq : (m.map fun e => cond (e.1 == k) (k, v) e).map Prod.fst = m.map Prod.fst := by
      simp only [List.map_map]
      apply List.map_congr_left
      intro e _
      cases he : (e.1 == k) with
      | true =>
        have hek : e.1 = k := eq_of_beq he
        simp [Function.comp, he, hek]
      | false => simp [Function.comp, he]
    rw [heq]
    exact h
  | false =>
    simp only [cond_false, List.map_append]
    rw [List.nodup_append]
    refine ⟨h, by simp, ?_⟩
    intro a ha hb
    simp only [List.map_cons, List.map_nil, List.mem_singleton] at hb
    rw [List.mem_map] at ha
    obtain ⟨e, he, hek⟩ := ha
    have hx : (e.1 == k) = true := by
      rw [hb] at hek
      simp [hek]
    have hy : (m.any fun e => e.1 == k) = true := List.any_eq_true.mpr ⟨e, he, hx⟩
    rw [hm] at hy
    exact absurd hy (by simp)

theorem harvestOne_keys_nodup (o : String → SnapOutcome) (acc : List (String × ℚ))
    (sym : String) (h : (acc.map Prod.fst).Nodup) :
    ((harvestOne o acc sym).map Prod.fst).Nodup := by
  unfold harvestOne
  cases o sym with
  | reqError => exact h
  | readError => exact h
  | nan => exact h
  | val p =>
    by_cases hp : p = 0
    · simp only [hp, if_true]; exact h
    · simp only [hp, if_false]
      exact dictInsert_keys_nodup acc sym p h

theorem harvest_foldl_keys_nodup (o : String → SnapOutcome) (ls : List String) :
    ∀ acc : List (String × ℚ), (acc.map Prod.fst).Nodup →
      ((ls.foldl (harvestOne o) acc).map Prod.fst).Nodup := by
  induction ls with
  | nil => intro acc h; exact h
  | cons x t ih =>
    intro acc h
    exact ih (harvestOne o acc x) (harvestOne_keys_nodup o acc x h)

theorem snapshot_batch_keys_nodup (o : String → SnapOutcome) (b : ℕ)
    (ts : List String) : ((snapshot_batch o b ts).map Prod.fst).Nodup := by
  by_cases hb : 0 < b
  · rw [snapshot_batch_eq o hb ts]
    exact harvest_foldl_keys_nodup o _ [] (by simp)
  · have : b = 0 := by omega
    subst this
    simp [snapshot_batch, chunks]

theorem mem_iff_lookup_of_keys_nodup (m : List (String × ℚ))
    (h : (m.map Prod.fst).Nodup) (k : String) (v : ℚ) :
    (k, v) ∈ m ↔ m.lookup k = some v := by
  induction m with
  | nil => simp [List.lookup]
  | cons e t ih =>
    cases e with
    | mk a w =>
      simp only [List.map_cons, List.nodup_cons] at h
      simp only [List.mem_cons, List.lookup]
      cases hx : (k == a) with
      | true =>
        have hk : k = a := eq_of_beq hx
        subst hk
        constructor
        · rintro (heq | hmem)
          · rw [Prod.mk.injEq] at heq
            rw [heq.2]
          · exfalso
            exact h.1 (List.mem_map.mpr ⟨(k, v), hmem, rfl⟩)
        · intro hv
          left
          simp only [Option.some.injEq] at hv
          rw [hv]
      | false =>
        have hk : k ≠ a := ne_of_beq_false hx
        rw [ih h.2]
        constructor
        · rintro (heq | hmem)
          · exfalso
            rw [Prod.mk.injEq] at heq
            exact hk heq.1
          · exact hmem
        · intro hv
          right
          exact hv

theorem snapshot_batch_mem_iff (o : String → SnapOutcome) {b : ℕ} (hb : 0 < b)
    (ts : List String) (sym : String) (p : ℚ) :
    (sym, p) ∈ snapshot_batch o b ts ↔
      (sym ∈ ts ∧ snapPrice o sym = some p) := by
  rw [mem_iff_lookup_of_keys_nodup _ (snapshot_batch_keys_nodup o b ts)]
  rw [snapshot_batch_lookup o hb]
  by_cases hm : sym ∈ ts
  · simp [hm]
  · simp [hm]

/-! ## Helper lemmas: cache build and deduplication -/

theorem dropDupFirstAux_subset :
    ∀ (l : List CacheRecord) (seen : List String) (r : CacheRecord),
      r ∈ dropDupFirstAux seen l → r ∈ l := by
  intro l
  induction l with
  | nil => intro seen r h; exact absurd h (by simp [dropDupFirstAux])
  | cons x t ih =>
    intro seen r h
    unfold dropDupFirstAux at h
    by_cases hx : x.ticker ∈ seen
    · simp only [hx, if_true] at h
      exact List.mem_cons_of_mem x (ih seen r h)
    · simp only [hx, if_false, List.mem_cons] at h
      rcases h with h | h
      · exact h ▸ List.mem_cons_self x t
      · exact List.mem_cons_of_mem x (ih _ r h)

theorem dropDupFirstAux_mem_keys :
    ∀ (l : List CacheRecord) (seen : List String) (t : String),
      t ∈ (dropDupFirstAux seen l).map (fun r => r.ticker) ↔
        (t ∉ seen ∧ t ∈ l.map fun r => r.ticker) := by
  intro l
  induction l with
  | nil =>
    intro seen t
    simp [dropDupFirstAux]
  | cons x xs ih =>
    intro seen t
    unfold dropDupFirstAux
    by_cases hx : x.ticker ∈ seen
    · simp only [hx, if_true]
      rw [ih]
      simp only [List.map_cons, List.mem_cons]
      constructor
      · rintro ⟨h1, h2⟩
        exact ⟨h1, Or.inr h2⟩
      · rintro ⟨h1, h2 | h2⟩
        · exact absurd (h2 ▸ hx) h1
        · exact ⟨h1, h2⟩
    · simp only [hx, if_false, List.map_cons, List.mem_cons]
      rw [ih]
      simp only [List.mem_cons]
      constructor
      · rintro (h | ⟨h1, h2⟩)
        · exact ⟨h ▸ hx, Or.inl h⟩
        · exact ⟨fun hs => h1 (Or.inr hs), Or.inr h2⟩
      · rintro ⟨h1, h2 | h2⟩
        · exact Or.inl h2
        · by_cases ht : t = x.ticker
          · exact Or.inl ht
          · exact Or.inr ⟨fun hs => by
              rcases hs with hs | hs
              · exact ht hs
              · exact h1 hs, h2⟩

theorem dropDupFirstAux_keys_nodup :
    ∀ (l : List CacheRecord) (seen : List String),
      ((dropDupFirstAux seen l).map fun r => r.ticker).Nodup := by
  intro l
  induction l with
  | nil => intro seen; simp [dropDupFirstAux]
  | cons x xs ih =>
    intro seen
    unfold dropDupFirstAux
    by_cases hx : x.ticker ∈ seen
    · simp only [hx, if_true]
      exact ih seen
    · simp only [hx, if_false, List.map_cons, List.nodup_cons]
      refine ⟨?_, ih _⟩
      intro hmem
      rw [dropDupFirstAux_mem_keys] at hmem
      exact hmem.1 (List.mem_cons_self _ _)

theorem dropDupFirstAux_find :
    ∀ (l : List CacheRecord) (seen : List String) (t : String), t ∉ seen →
      (dropDupFirstAux seen l).find? (fun r => r.ticker == t) =
        l.find? fun r => r.ticker == t := by
  intro l
  induction l with
  | nil => intro seen t _; rfl
  | cons x xs ih =>
    intro seen t ht
    unfold dropDupFirstAux
    by_cases hx : x.ticker ∈ seen
    · simp only [hx, if_true]
      have hne : (x.ticker == t) = false :=
        beq_false_of_ne fun h => ht (h ▸ hx)
      rw [List.find?_cons_of_neg _ (by simp [hne]), ih seen t ht]
    · simp only [hx, if_false]
      cases hb : (x.ticker == t) with
      | true =>
        rw [List.find?_cons_of_pos _ (by simp [hb]), List.find?_cons_of_pos _ (by simp [hb])]
      | false =>
        rw [List.find?_cons_of_neg _ (by simp [hb]), List.find?_cons_of_neg _ (by simp [hb])]
        refine ih _ t ?_
        intro hmem
        rcases List.mem_cons.mp hmem with h | h
        · rw [h] at hb
          simp at hb
        · exact ht h

theorem recordOf_eq_some (t : String) (res : SmaFetchResult) (r : CacheRecord) :
    recordOf t res = some r ↔
      (res.smas ≠ [] ∧
        r = ⟨t, res.smas.lookup 50, res.smas.lookup 100, res.smas.lookup 200, res.lastBarDate⟩) := by
  unfold recordOf
  by_cases h : res.smas = []
  · simp [h]
  · simp only [h, if_false, Option.some.injEq]
    constructor
    · intro he
      exact ⟨h, he.symm⟩
    · intro he
      exact he.2.symm

theorem buildRecords_mem_keys (fetch : ℕ → String → SmaFetchResult)
    (tickers : List String) (t : String) :
    t ∈ (buildRecords fetch tickers).map (fun r => r.ticker) ↔
      ∃ pr ∈ tickers.enum, pr.2 = t ∧ (fetch pr.1 pr.2).smas ≠ [] := by
  unfold buildRecords
  rw [List.mem_map]
  constructor
  · rintro ⟨r, hr, hticker⟩
    rw [List.mem_filterMap] at hr
    obtain ⟨pr, hpr, hrec⟩ := hr
    rw [recordOf_eq_some] at hrec
    refine ⟨pr, hpr, ?_, hrec.1⟩
    rw [hrec.2] at hticker
    exact hticker
  · rintro ⟨pr, hpr, hpt, hne⟩
    refine ⟨⟨pr.2, (fetch pr.1 pr.2).smas.lookup 50, (fetch pr.1 pr.2).smas.lookup 100,
      (fetch pr.1 pr.2).smas.lookup 200, (fetch pr.1 pr.2).lastBarDate⟩, ?_, hpt⟩
    rw [List.mem_filterMap]
    exact ⟨pr, hpr, (recordOf_eq_some _ _ _).mpr ⟨hne, rfl⟩⟩

theorem build_sma_cache_ok (fetch : ℕ → String → SmaFetchResult)
    (tickers : List String) (table : List CacheRecord)
    (h : build_sma_cache fetch tickers = Except.ok table) :
    buildRecords fetch tickers ≠ [] ∧ table = dropDupFirst (buildRecords fetch tickers) := by
  unfold build_sma_cache at h
  by_cases hr : buildRecords fetch tickers = []
  · rw [if_pos hr] at h
    exact absurd h (by simp)
  · rw [if_neg hr] at h
    simp only [Except.ok.injEq] at h
    exact ⟨hr, h.symm⟩

/-! ## Helper lemmas: sorting and SMA windows -/

theorem sorted_le_getLast {l : List Bar} (hs : l.Sorted barLE) {x : Bar}
    (hl : l.getLast? = some x) : ∀ b ∈ l, b.date ≤ x.date := by
  induction l with
  | nil => simp at hl
  | cons a t ih =>
    intro b hb
    cases t with
    | nil =>
      simp only [List.getLast?_singleton, Option.some.injEq] at hl
      rcases List.mem_singleton.mp hb with h
      rw [h, hl]
    | cons c u =>
      rw [List.getLast?_cons_cons] at hl
      rcases List.mem_cons.mp hb with h | h
      · have hx : x ∈ c :: u := by
          have := List.mem_of_mem_getLast? (l := c :: u) hl
          exact this
        have := (List.sorted_cons.mp hs).1 x hx
        rw [h]
        exact this
      · exact ih (List.sorted_cons.mp hs).2 hl b h

theorem lookup_windows (L : ℕ) (g : ℕ → ℚ) :
    ∀ (lengths : List ℕ) (w : ℕ) (v : ℚ),
      ((lengths.filterMap fun l => if l ≤ L then some (l, g l) else none).lookup w = some v) ↔
        (w ∈ lengths ∧ w ≤ L ∧ v = g w) := by
  intro lengths
  induction lengths with
  | nil => intro w v; simp [List.lookup]
  | cons l ls ih =>
    intro w v
    simp only [List.filterMap_cons]
    by_cases hl : l ≤ L
    · rw [if_pos hl]
      simp only [List.lookup]
      cases hw : (w == l) with
      | true =>
        have hwl : w = l := eq_of_beq hw
        subst hwl
        simp only [Option.some.injEq]
        constructor
        · intro h
          exact ⟨List.mem_cons_self _ _, hl, h.symm⟩
        · rintro ⟨_, _, h⟩
          exact h.symm
      | false =>
        have hwl : w ≠ l := ne_of_beq_false hw
        rw [ih]
        simp only [List.mem_cons]
        constructor
        · rintro ⟨h1, h2, h3⟩
          exact ⟨Or.inr h1, h2, h3⟩
        · rintro ⟨h1 | h1, h2, h3⟩
          · exact absurd h1 hwl
          · exact ⟨h1, h2, h3⟩
    · rw [if_neg hl]
      rw [ih]
      simp only [List.mem_cons]
      constructor
      · rintro ⟨h1, h2, h3⟩
        exact ⟨Or.inr h1, h2, h3⟩
      · rintro ⟨h1 | h1, h2, h3⟩
        · exact absurd (h1 ▸ h2) hl
        · exact ⟨h1, h2, h3⟩

/-! ## Helper lemmas: the connect loop -/

theorem connectLoop_length_le (o : ℕ → ℤ → ConnOutcome) :
    ∀ (n a : ℕ) (cid : ℤ), (connectLoop o n a cid).attempts.length ≤ n := by
  intro n
  induction n with
  | zero => intro a cid; simp [connectLoop]
  | succ m ih =>
    intro a cid
    simp only [connectLoop]
    by_cases h : o a cid = ConnOutcome.ok
    · rw [if_pos h]
      simp
    · rw [if_neg h]
      simp only [List.length_cons]
      exact Nat.succ_le_succ (ih _ _)

theorem connectLoop_attempts_get (o : ℕ → ℤ → ConnOutcome) :
    ∀ (n a : ℕ) (cid : ℤ) (j k : ℕ) (c : ℤ),
      (connectLoop o n a cid).attempts[j]? = some (k, c) →
      k = a + j ∧ c = cid + (((a + j) / 2 - a / 2 : ℕ) : ℤ) := by
  intro n
  induction n with
  | zero =>
    intro a cid j k c h
    simp [connectLoop] at h
  | succ m ih =>
    intro a cid j k c h
    simp only [connectLoop] at h
    by_cases ho : o a cid = ConnOutcome.ok
    · rw [if_pos ho] at h
      cases j with
      | zero =>
        simp only [List.getElem?_cons_zero, Option.some.injEq, Prod.mk.injEq] at h
        refine ⟨by omega, ?_⟩
        rw [← h.2]
        simp
      | succ j' => simp at h
    · rw [if_neg ho] at h
      cases j with
      | zero =>
        simp only [List.getElem?_cons_zero, Option.some.injEq, Prod.mk.injEq] at h
        refine ⟨by omega, ?_⟩
        rw [← h.2]
        simp
      | succ j' =>
        simp only [List.getElem?_cons_succ] at h
        by_cases hpar : a % 2 = 1
        · rw [if_pos hpar] at h
          obtain ⟨hk, hc⟩ := ih (a + 1) (cid + 1) j' k c h
          refine ⟨by omega, ?_⟩
          rw [hc]
          have h2 : (a + 1 + j') = a + (j' + 1) := by omega
          rw [h2]
          have h3 : (a + (j' + 1)) / 2 - (a + 1) / 2 + 1 = (a + (j' + 1)) / 2 - a / 2 := by
            omega
          omega
        · rw [if_neg hpar] at h
          obtain ⟨hk, hc⟩ := ih (a + 1) cid j' k c h
          refine ⟨by omega, ?_⟩
          rw [hc]
          have h2 : (a + 1 + j') = a + (j' + 1) := by omega
          rw [h2]
          have h3 : (a + (j' + 1)) / 2 - (a + 1) / 2 = (a + (j' + 1)) / 2 - a / 2 := by
            omega
          omega

theorem connectLoop_result_none (o : ℕ → ℤ → ConnOutcome) :
    ∀ (n a : ℕ) (cid : ℤ), (connectLoop o n a cid).result = none →
      (connectLoop o n a cid).attempts.length = n ∧
      ∀ p ∈ (connectLoop o n a cid).attempts, o p.1 p.2 ≠ ConnOutcome.ok := by
  intro n
  induction n with
  | zero => intro a cid _; simp [connectLoop]
  | succ m ih =>
    intro a cid h
    simp only [connectLoop] at h ⊢
    by_cases ho : o a cid = ConnOutcome.ok
    · rw [if_pos ho] at h
      simp at h
    · rw [if_neg ho] at h ⊢
      simp only at h
      obtain ⟨hlen, hall⟩ := ih (a + 1) (if a % 2 = 1 then cid + 1 else cid) h
      refine ⟨by simp [hlen], ?_⟩
      intro p hp
      rcases List.mem_cons.mp hp with hp | hp
      · rw [hp]
        exact ho
      · exact hall p hp

theorem connectLoop_result_some (o : ℕ → ℤ → ConnOutcome) :
    ∀ (n a : ℕ) (cid : ℤ) (c : ℤ), (connectLoop o n a cid).result = some c →
      ∃ k, (connectLoop o n a cid).attempts.getLast? = some (k, c) ∧
        o k c = ConnOutcome.ok ∧
        ∀ p ∈ (connectLoop o n a cid).attempts.dropLast, o p.1 p.2 ≠ ConnOutcome.ok := by
  intro n
  induction n with
  | zero => intro a cid c h; simp [connectLoop] at h
  | succ m ih =>
    intro a cid c h
    simp only [connectLoop] at h ⊢
    by_cases ho : o a cid = ConnOutcome.ok
    · rw [if_pos ho] at h ⊢
      simp only [Option.some.injEq] at h
      subst h
      exact ⟨a, by simp, ho, by simp⟩
    · rw [if_neg ho] at h ⊢
      simp only at h
      obtain ⟨k, hlast, hok, hdrop⟩ := ih (a + 1) (if a % 2 = 1 then cid + 1 else cid) c h
      refine ⟨k, ?_, hok, ?_⟩
      · cases hrest : (connectLoop o m (a + 1) (if a % 2 = 1 then cid + 1 else cid)).attempts with
        | nil =>
          rw [hrest] at hlast
          simp at hlast
        | cons y ys =>
          rw [hrest] at hlast
          rw [List.getLast?_cons_cons]
          exact hlast
      · intro p hp
        cases hrest : (connectLoop o m (a + 1) (if a % 2 = 1 then cid + 1 else cid)).attempts with
        | nil =>
          rw [hrest] at hlast
          simp at hlast
        | cons y ys =>
          rw [hrest] at hp hdrop
          rw [List.dropLast_cons₂] at hp
          rcases List.mem_cons.mp hp with hp | hp
          · rw [hp]
            exact ho
          · exact hdrop p hp

theorem connectLoop_sleeps (o : ℕ → ℤ → ConnOutcome) :
    ∀ (n a : ℕ) (cid : ℤ),
      (connectLoop o n a cid).sleeps =
        (if (connectLoop o n a cid).result.isSome
          then (connectLoop o n a cid).attempts.dropLast
          else (connectLoop o n a cid).attempts).map fun p => 2 + p.1 := by
  intro n
  induction n with
  | zero => intro a cid; simp [connectLoop]
  | succ m ih =>
    intro a cid
    simp only [connectLoop]
    by_cases ho : o a cid = ConnOutcome.ok
    · rw [if_pos ho]
      simp
    · rw [if_neg ho]
      simp only
      cases hres : (connectLoop o m (a + 1) (if a % 2 = 1 then cid + 1 else cid)).result with
      | some c =>
        have hne := connectLoop_result_some o m (a + 1)
          (if a % 2 = 1 then cid + 1 else cid) c hres
        obtain ⟨k, hlast, _, _⟩ := hne
        cases hrest : (connectLoop o m (a + 1) (if a % 2 = 1 then cid + 1 else cid)).attempts with
        | nil =>
          rw [hrest] at hlast
          simp at hlast
        | cons y ys =>
          have hihs := ih (a + 1) (if a % 2 = 1 then cid + 1 else cid)
          rw [hres, hrest] at hihs
          simp only [Option.isSome_some, if_true] at hihs
          simp only [Option.isSome_some, if_true, List.dropLast_cons₂, List.map_cons]
          rw [hihs]
      | none =>
        have hihs := ih (a + 1) (if a % 2 = 1 then cid + 1 else cid)
        rw [hres] at hihs
        simp only [Option.isSome_none, Bool.false_eq_true, if_false] at hihs
        simp only [Option.isSome_none, Bool.false_eq_true, if_false, List.map_cons]
        rw [hihs]

/-! ## Helper lemmas: reconnect supervisor -/

theorem supStep_inv (s : SupState) (e : SupEvent)
    (h : s.active ≤ 1 ∧ (s.inProgress = true ↔ s.active = 1)) :
    (supStep s e).active ≤ 1 ∧
      ((supStep s e).inProgress = true ↔ (supStep s e).active = 1) := by
  obtain ⟨h1, h2⟩ := h
  cases e with
  | disconnect =>
    simp only [supStep, schedule_reconnect]
    cases hp : s.inProgress with
    | true =>
      rw [if_pos rfl]
      exact ⟨h1, hp ▸ h2⟩
    | false =>
      rw [if_neg (by simp)]
      have hne : s.active ≠ 1 := fun hx => by
        rw [hp] at h2
        exact absurd (h2.mpr hx) (by simp)
      constructor
      · show s.active + 1 ≤ 1
        omega
      · show (true = true) ↔ s.active + 1 = 1
        constructor
        · intro _
          omega
        · intro _
          rfl
  | finish =>
    simp only [supStep]
    by_cases ha : s.active = 0
    · rw [if_pos ha]
      exact ⟨h1, h2⟩
    · rw [if_neg ha]
      have : s.active = 1 := by omega
      simp [this]

theorem foldl_supStep_inv (events : List SupEvent) :
    ∀ s : SupState, (s.active ≤ 1 ∧ (s.inProgress = true ↔ s.active = 1)) →
      ((events.foldl supStep s).active ≤ 1 ∧
        ((events.foldl supStep s).inProgress = true ↔ (events.foldl supStep s).active = 1)) := by
  induction events with
  | nil => intro s h; exact h
  | cons e t ih =>
    intro s h
    exact ih (supStep s e) (supStep_inv s e h)

theorem reconnectWorker_sleeps_spec (tryConn : ℕ → ℤ → Bool) (cid : ℤ) :
    ∀ (ds : List ℕ) (n : ℕ),
      (reconnectWorker tryConn cid n ds).2 =
        ds.take (reconnectWorker tryConn cid n ds).2.length ∧
      ((reconnectWorker tryConn cid n ds).1 = none →
        (reconnectWorker tryConn cid n ds).2 = ds) := by
  intro ds
  induction ds with
  | nil => intro n; exact ⟨rfl, fun _ => rfl⟩
  | cons d t ih =>
    intro n
    simp only [reconnectWorker]
    cases h1 : tryConn n cid with
    | true => simp
    | false =>
      cases h2 : tryConn n (cid + 1) with
      | true => simp
      | false =>
        simp only [Bool.false_eq_true, if_false]
        obtain ⟨htake, hnone⟩ := ih (n + 1)
        refine ⟨?_, ?_⟩
        · simp only [List.length_cons, List.take_succ_cons]
          rw [← htake]
        · intro hres
          rw [hnone hres]

/-! ## Claim theorems -/

/-- C2: for every clock instant, if the Eastern-time clock reads 16:15 or
later then `expected_cache_date_ny` returns that same day; otherwise it
returns the previous business day, where a Saturday, Sunday or Monday clock
yields the preceding Friday and a Tuesday-through-Friday clock yields the
previous calendar day. -/
theorem C2_expected_cache_date (now : NYTime) :
    (marketCloseCutoff ≤ now.minute → expected_cache_date_ny now = now.day) ∧
    (now.minute < marketCloseCutoff →
      ((now.day % 7 = 5 ∨ now.day % 7 = 6 ∨ now.day % 7 = 0) →
        isPrecedingFriday now.day (expected_cache_date_ny now)) ∧
      ((now.day % 7 = 1 ∨ now.day % 7 = 2 ∨ now.day % 7 = 3 ∨ now.day % 7 = 4) →
        expected_cache_date_ny now = now.day - 1)) := by
  obtain ⟨d, m⟩ := now
  simp only [expected_cache_date_ny]
  constructor
  · intro h
    rw [if_pos h]
  · intro hm
    have hnot : ¬ (marketCloseCutoff ≤ (NYTime.mk d m).minute) := by
      simp only [NYTime.mk] at hm ⊢
      omega
    rw [if_neg hnot]
    simp only [prev_business_day]
    constructor
    · intro hwd
      unfold isPrecedingFriday
      rcases hwd with h | h | h
      · rw [if_neg (by omega), if_neg (by omega)]
        exact ⟨by omega, by omega, fun x h1 h2 => by omega⟩
      · rw [if_neg (by omega), if_pos (by omega)]
        exact ⟨by omega, by omega, fun x h1 h2 => by omega⟩
      · rw [if_pos (by omega)]
        exact ⟨by omega, by omega, fun x h1 h2 => by omega⟩
    · intro hwd
      rw [if_neg (by omega), if_neg (by omega)]

/-- Witness for C2 at a concrete Saturday morning: day 5 (weekday 5) at
minute 0 rolls back to day 4, the preceding Friday. -/
theorem C2_expected_cache_date_witness :
    expected_cache_date_ny ⟨5, 0⟩ = 4 ∧
      isPrecedingFriday 5 (expected_cache_date_ny ⟨5, 0⟩) := by
  refine ⟨by decide, ?_⟩
  exact ((C2_expected_cache_date ⟨5, 0⟩).2 (by decide)).1 (by decide)

theorem scan_with_cache_ok (univ : List String) (cache : List CacheRecord)
    (o : String → SnapOutcome) (b : ℕ) (res : ScanResult)
    (h : scan_with_cache univ cache o b = Except.ok res) :
    ((snapshot_batch o b (univ.filter fun t => (cacheLookup cache t).isSome)).filterMap
        (scanRow cache) ≠ []) ∧
    res = ⟨((snapshot_batch o b (univ.filter fun t => (cacheLookup cache t).isSome)).filterMap
        (scanRow cache)).insertionSort priceDesc,
      univ.filter fun t => !(cacheLookup cache t).isSome⟩ := by
  simp only [scan_with_cache] at h
  by_cases hrows : (snapshot_batch o b
      (univ.filter fun t => (cacheLookup cache t).isSome)).filterMap (scanRow cache) = []
  · rw [if_pos hrows] at h
    exact absurd h (by simp)
  · rw [if_neg hrows] at h
    simp only [Except.ok.injEq] at h
    exact ⟨hrows, h.symm⟩

theorem scan_with_cache_error_iff (univ : List String) (cache : List CacheRecord)
    (o : String → SnapOutcome) (b : ℕ) :
    (∃ e, scan_with_cache univ cache o b = Except.error e) ↔
      (snapshot_batch o b (univ.filter fun t => (cacheLookup cache t).isSome)).filterMap
        (scanRow cache) = [] := by
  simp only [scan_with_cache]
  by_cases hrows : (snapshot_batch o b
      (univ.filter fun t => (cacheLookup cache t).isSome)).filterMap (scanRow cache) = []
  · rw [if_pos hrows]
    exact ⟨fun _ => hrows, fun _ => ⟨"KeyError: price", rfl⟩⟩
  · rw [if_neg hrows]
    constructor
    · rintro ⟨e, he⟩
      exact absurd he (by simp)
    · intro hc
      exact absurd hc hrows

/-- C7 counterexample: the `missing` output does depend on which live prices
were obtained.  Universe ["A", "Z"], cache holding only "A": when "A"'s
snapshot delivers 10 the scan returns and reports missing = ["Z"]; when every
snapshot delivers NaN, zero tickers match and the scan raises from sorting
the columnless empty DataFrame, returning no `missing` list at all. -/
theorem C7_missing_counterexample :
    scan_with_cache ["A", "Z"] [cacheRowA] outcomeValTen 50 =
      Except.ok ⟨[⟨"A", round2 10, 1, 2, 3⟩], ["Z"]⟩ ∧
    scan_with_cache ["A", "Z"] [cacheRowA] outcomeAllNan 50 =
      Except.error "KeyError: price" :=
  ⟨rfl, rfl⟩

/-- C7 (amended): whenever `scan_with_cache` returns a result, its `missing`
output is exactly the universe minus the cache's keys, and any two returning
runs over the same universe and cache — whatever their snapshot outcomes and
batch sizes — report the same `missing`; but when zero tickers match, the
scan raises from the empty-DataFrame sort and returns no output, so whether
`missing` is produced at all does depend on the snapshot outcomes. -/
theorem C7_missing_from_cache (univ : List String) (cache : List CacheRecord)
    (o1 o2 : String → SnapOutcome) (b1 b2 : ℕ) :
    (∀ res1 res2, scan_with_cache univ cache o1 b1 = Except.ok res1 →
      scan_with_cache univ cache o2 b2 = Except.ok res2 →
      res1.missing = res2.missing) ∧
    (∀ res, scan_with_cache univ cache o1 b1 = Except.ok res →
      ∀ t, t ∈ res.missing ↔ (t ∈ univ ∧ cacheLookup cache t = none)) := by
  constructor
  · intro res1 res2 h1 h2
    obtain ⟨-, he1⟩ := scan_with_cache_ok univ cache o1 b1 res1 h1
    obtain ⟨-, he2⟩ := scan_with_cache_ok univ cache o2 b2 res2 h2
    rw [he1, he2]
  · intro res hres t
    obtain ⟨-, he⟩ := scan_with_cache_ok univ cache o1 b1 res hres
    rw [he]
    show t ∈ univ.filter (fun t => !(cacheLookup cache t).isSome) ↔ _
    rw [List.mem_filter]
    constructor
    · rintro ⟨h1, h2⟩
      refine ⟨h1, ?_⟩
      cases hx : cacheLookup cache t with
      | none => rfl
      | some r =>
        rw [hx] at h2
        simp at h2
    · rintro ⟨h1, h2⟩
      refine ⟨h1, ?_⟩
      rw [h2]
      rfl

/-- Witness for C7: a returning scan over ["A", "Z"] with only "A" cached
reports "Z" missing exactly because "Z" is in the universe but not cached. -/
theorem C7_missing_from_cache_witness :
    "Z" ∈ (ScanResult.mk [⟨"A", round2 10, 1, 2, 3⟩] ["Z"]).missing ↔
      ("Z" ∈ ["A", "Z"] ∧ cacheLookup [cacheRowA] "Z" = none) :=
  (C7_missing_from_cache ["A", "Z"] [cacheRowA] outcomeValTen outcomeValTen 50 50).2
    ⟨[⟨"A", round2 10, 1, 2, 3⟩], ["Z"]⟩ rfl "Z"

/-- C9: a symbol whose delivered snapshot price is exactly 0.0 (Python-falsy)
is excluded from `_snapshot_batch`'s mapping, alongside the missing-price,
NaN and request-error exclusions; every mapped price is a delivered non-zero
value. -/
theorem C9_snapshot_excludes_falsy (o : String → SnapOutcome) (ts : List String)
    (b : ℕ) (hb : 0 < b) :
    (∀ sym p, (snapshot_batch o b ts).lookup sym = some p →
      o sym = SnapOutcome.val p ∧ p ≠ 0) ∧
    (∀ sym, o sym = SnapOutcome.val 0 → (snapshot_batch o b ts).lookup sym = none) ∧
    (∀ sym, (o sym = SnapOutcome.reqError ∨ o sym = SnapOutcome.readError ∨
        o sym = SnapOutcome.nan) →
      (snapshot_batch o b ts).lookup sym = none) := by
  refine ⟨?_, ?_, ?_⟩
  · intro sym p h
    rw [snapshot_batch_lookup o hb] at h
    by_cases hm : sym ∈ ts
    · rw [if_pos hm] at h
      cases ho : o sym with
      | reqError =>
        simp only [snapPrice, ho] at h
        exact absurd h (by simp)
      | readError =>
        simp only [snapPrice, ho] at h
        exact absurd h (by simp)
      | nan =>
        simp only [snapPrice, ho] at h
        exact absurd h (by simp)
      | val q =>
        simp only [snapPrice, ho] at h
        by_cases hq : q = 0
        · rw [if_pos hq] at h
          exact absurd h (by simp)
        · rw [if_neg hq] at h
          simp only [Option.some.injEq] at h
          subst h
          exact ⟨rfl, hq⟩
    · rw [if_neg hm] at h
      exact absurd h (by simp)
  · intro sym hsym
    rw [snapshot_batch_lookup o hb]
    by_cases hm : sym ∈ ts
    · rw [if_pos hm]
      simp [snapPrice, hsym]
    · rw [if_neg hm]
  · intro sym hsym
    rw [snapshot_batch_lookup o hb]
    by_cases hm : sym ∈ ts
    · rw [if_pos hm]
      rcases hsym with h | h | h <;> simp [snapPrice, h]
    · rw [if_neg hm]

/-- Witness for C9: with every delivered price 0.0 the mapping holds no
entry. -/
theorem C9_snapshot_excludes_falsy_witness :
    (snapshot_batch outcomeValZero 20 ["A"]).lookup "A" = none :=
  (C9_snapshot_excludes_falsy outcomeValZero ["A"] 20 (by decide)).2.1 "A" rfl

theorem scanRow_eq_some (cache : List CacheRecord) (sp : String × ℚ) (r : MatchRow) :
    scanRow cache sp = some r ↔
      ∃ rec a50 a100 a200, cacheLookup cache sp.1 = some rec ∧
        rec.sma50 = some a50 ∧ rec.sma100 = some a100 ∧ rec.sma200 = some a200 ∧
        a50 < sp.2 ∧ a100 < sp.2 ∧ a200 < sp.2 ∧
        r = ⟨sp.1, round2 sp.2, a50, a100, a200⟩ := by
  unfold scanRow
  constructor
  · intro hf
    cases hcl : cacheLookup cache sp.1 with
    | none =>
      rw [hcl] at hf
      exact absurd hf (by simp)
    | some row =>
      rw [hcl] at hf
      simp only [] at hf
      cases h50 : row.sma50 with
      | none =>
        rw [h50] at hf
        simp only [] at hf
        exact absurd hf (by simp)
      | some a50 =>
        cases h100 : row.sma100 with
        | none =>
          rw [h50, h100] at hf
          simp only [] at hf
          exact absurd hf (by simp)
        | some a100 =>
          cases h200 : row.sma200 with
          | none =>
            rw [h50, h100, h200] at hf
            simp only [] at hf
            exact absurd hf (by simp)
          | some a200 =>
            rw [h50, h100, h200] at hf
            simp only [] at hf
            by_cases hcond : a50 < sp.2 ∧ a100 < sp.2 ∧ a200 < sp.2
            · rw [if_pos hcond] at hf
              simp only [Option.some.injEq] at hf
              exact ⟨row, a50, a100, a200, rfl, h50, h100, h200,
                hcond.1, hcond.2.1, hcond.2.2, hf.symm⟩
            · rw [if_neg hcond] at hf
              exact absurd hf (by simp)
  · rintro ⟨rec, a50, a100, a200, hcl, h50, h100, h200, hlt1, hlt2, hlt3, hr⟩
    rw [hcl]
    simp only []
    rw [h50, h100, h200]
    simp only []
    rw [if_pos ⟨hlt1, hlt2, hlt3⟩, hr]

theorem scan_rows_ticker_iff (univ : List String) (cache : List CacheRecord)
    (o : String → SnapOutcome) (b : ℕ) (sym : String) :
    (∃ r ∈ (snapshot_batch o b (univ.filter fun t => (cacheLookup cache t).isSome)).filterMap
        (scanRow cache), r.ticker = sym) ↔
      (∃ p rec,
        (snapshot_batch o b (univ.filter fun t => (cacheLookup cache t).isSome)).lookup sym
            = some p ∧
        cacheLookup cache sym = some rec ∧
        ∃ a50 a100 a200, rec.sma50 = some a50 ∧ rec.sma100 = some a100 ∧
          rec.sma200 = some a200 ∧ a50 < p ∧ a100 < p ∧ a200 < p) := by
  have hnd := snapshot_batch_keys_nodup o b
    (univ.filter fun t => (cacheLookup cache t).isSome)
  constructor
  · rintro ⟨r, hr, hticker⟩
    rw [List.mem_filterMap] at hr
    obtain ⟨sp, hsp, hf⟩ := hr
    rw [scanRow_eq_some] at hf
    obtain ⟨rec, a50, a100, a200, hcl, h50, h100, h200, hlt1, hlt2, hlt3, hr⟩ := hf
    obtain ⟨s, p⟩ := sp
    have hts : s = sym := by
      rw [hr] at hticker
      exact hticker
    subst hts
    exact ⟨p, rec, (mem_iff_lookup_of_keys_nodup _ hnd s p).mp hsp, hcl,
      a50, a100, a200, h50, h100, h200, hlt1, hlt2, hlt3⟩
  · rintro ⟨p, rec, hlook, hcl, a50, a100, a200, h50, h100, h200, hlt1, hlt2, hlt3⟩
    refine ⟨⟨sym, round2 p, a50, a100, a200⟩, ?_, rfl⟩
    rw [List.mem_filterMap]
    refine ⟨(sym, p), (mem_iff_lookup_of_keys_nodup _ hnd sym p).mpr hlook, ?_⟩
    rw [scanRow_eq_some]
    exact ⟨rec, a50, a100, a200, hcl, h50, h100, h200, hlt1, hlt2, hlt3, rfl⟩

/-- C1 counterexample: exclusion is not error-free.  With universe ["A"],
"A" cached with all three SMAs, and a snapshot that delivers no usable price
(NaN), the ticker is dropped, zero tickers match, and the scan raises
`KeyError: price` from sorting the columnless empty DataFrame instead of
returning a result that merely excludes "A". -/
theorem C1_scan_error_counterexample :
    outcomeAllNan "A" = SnapOutcome.nan ∧
    scan_with_cache ["A"] [cacheRowA] outcomeAllNan 50 = Except.error "KeyError: price" ∧
    ¬ ∃ res, scan_with_cache ["A"] [cacheRowA] outcomeAllNan 50 = Except.ok res := by
  refine ⟨rfl, rfl, ?_⟩
  rintro ⟨res, hres⟩
  rw [show scan_with_cache ["A"] [cacheRowA] outcomeAllNan 50 =
    Except.error "KeyError: price" from rfl] at hres
  exact absurd hres (by simp)

/-- C1 (amended): whenever the scan returns a result, a ticker appears in its
matches iff a live snapshot price was obtained for it, all three cached SMA
values are present, and the live price strictly exceeds each of the three —
so a ticker missing a cached SMA or a live price is excluded without an error
as long as at least one ticker matches; the scan raises (returns no result)
exactly when no ticker satisfies the match condition. -/
theorem C1_scan_match_iff (univ : List String) (cache : List CacheRecord)
    (o : String → SnapOutcome) (b : ℕ) (_hb : 0 < b) (sym : String) :
    (∀ res, scan_with_cache univ cache o b = Except.ok res →
      ((∃ r ∈ res.matched, r.ticker = sym) ↔
        (∃ p rec,
          (snapshot_batch o b (univ.filter fun t => (cacheLookup cache t).isSome)).lookup sym
              = some p ∧
          cacheLookup cache sym = some rec ∧
          ∃ a50 a100 a200, rec.sma50 = some a50 ∧ rec.sma100 = some a100 ∧
            rec.sma200 = some a200 ∧ a50 < p ∧ a100 < p ∧ a200 < p))) ∧
    ((∃ e, scan_with_cache univ cache o b = Except.error e) ↔
      ∀ s, ¬ (∃ p rec,
        (snapshot_batch o b (univ.filter fun t => (cacheLookup cache t).isSome)).lookup s
            = some p ∧
        cacheLookup cache s = some rec ∧
        ∃ a50 a100 a200, rec.sma50 = some a50 ∧ rec.sma100 = some a100 ∧
          rec.sma200 = some a200 ∧ a50 < p ∧ a100 < p ∧ a200 < p)) := by
  constructor
  · intro res hres
    obtain ⟨-, heq⟩ := scan_with_cache_ok univ cache o b res hres
    rw [heq]
    show (∃ r ∈ ((snapshot_batch o b
        (univ.filter fun t => (cacheLookup cache t).isSome)).filterMap
        (scanRow cache)).insertionSort priceDesc, r.ticker = sym) ↔ _
    simp only [List.mem_insertionSort]
    exact scan_rows_ticker_iff univ cache o b sym
  · rw [scan_with_cache_error_iff, List.eq_nil_iff_forall_not_mem]
    constructor
    · intro hnil s hs
      obtain ⟨r, hr, -⟩ := (scan_rows_ticker_iff univ cache o b s).mpr hs
      exact hnil r hr
    · intro hall r hr
      exact hall r.ticker ((scan_rows_ticker_iff univ cache o b r.ticker).mp ⟨r, hr, rfl⟩)

/-- Witness for C1: ticker "A" with live price 10 above cached SMAs 1, 2, 3
appears in the matches of the returned result. -/
theorem C1_scan_match_iff_witness :
    ∃ r ∈ (ScanResult.mk [⟨"A", round2 10, 1, 2, 3⟩] []).matched, r.ticker = "A" := by
  refine ((C1_scan_match_iff ["A"] [cacheRowA] outcomeValTen 50 (by decide) "A").1
    ⟨[⟨"A", round2 10, 1, 2, 3⟩], []⟩ rfl).mpr ?_
  refine ⟨10, cacheRowA, ?_, rfl, 1, 2, 3, rfl, rfl, rfl, by decide, by decide, by decide⟩
  decide

/-- C3 counterexample: the rebuild keeps the FIRST occurrence of a duplicated
ticker, not the last.  With a universe ["A", "A"] whose first fetch yields
SMA50 = 1 and whose second yields SMA50 = 2, the written row holds 1, so the
claimed last-write-wins row (SMA50 = 2) is not what is produced. -/
theorem C3_rebuild_counterexample :
    build_sma_cache fetchFirstSecond ["A", "A"] =
      Except.ok [⟨"A", some 1, none, none, some 10⟩] ∧
    ¬ (build_sma_cache fetchFirstSecond ["A", "A"] =
        Except.ok [⟨"A", some 2, none, none, some 11⟩]) := by
  constructor
  · rfl
  · intro h
    rw [show build_sma_cache fetchFirstSecond ["A", "A"] =
      Except.ok [⟨"A", some 1, none, none, some 10⟩] from rfl] at h
    have := Except.ok.inj h
    exact absurd this (by decide)

/-- C3 (amended): for every universe, `build_sma_cache`'s table keys are
exactly the distinct tickers with a non-empty SMA result, appearing once
each; duplicates collapse under FIRST-write-wins — a ticker's row is the
record of its earliest successful occurrence (row lookup agrees with lookup
in the in-order record list). -/
theorem C3_rebuild_keys (fetch : ℕ → String → SmaFetchResult)
    (tickers : List String) (table : List CacheRecord)
    (h : build_sma_cache fetch tickers = Except.ok table) :
    ((table.map fun r => r.ticker).Nodup) ∧
    (∀ t, t ∈ table.map (fun r => r.ticker) ↔
      ∃ pr ∈ tickers.enum, pr.2 = t ∧ (fetch pr.1 pr.2).smas ≠ []) ∧
    (∀ t, cacheLookup table t = cacheLookup (buildRecords fetch tickers) t) := by
  obtain ⟨hne, htable⟩ := build_sma_cache_ok fetch tickers table h
  subst htable
  refine ⟨dropDupFirstAux_keys_nodup _ [], ?_, ?_⟩
  · intro t
    unfold dropDupFirst
    rw [dropDupFirstAux_mem_keys]
    rw [buildRecords_mem_keys]
    simp
  · intro t
    unfold dropDupFirst cacheLookup
    exact dropDupFirstAux_find _ [] t (by simp)

/-- Witness for C3's amended theorem on the duplicate universe ["A", "A"]. -/
theorem C3_rebuild_keys_witness :
    (([⟨"A", some 1, none, none, some 10⟩] : List CacheRecord).map fun r => r.ticker).Nodup ∧
    cacheLookup [⟨"A", some 1, none, none, some 10⟩] "A" =
      cacheLookup (buildRecords fetchFirstSecond ["A", "A"]) "A" := by
  have h := C3_rebuild_keys fetchFirstSecond ["A", "A"]
    [⟨"A", some 1, none, none, some 10⟩] rfl
  exact ⟨h.1, h.2.2 "A"⟩

/-- C4: `get_sma_and_last_price` returns the null triple when the request
fails or delivers no bars; otherwise, over the bars sorted by date ascending,
it returns the final bar's close and date (the final bar carries the maximal
date among all bars), and the SMA mapping holds window `w` iff `w` is one of
{50, 100, 200} and at least `w` bars exist, with value the rounded mean of
the trailing `w` closes; with fewer than 50 bars the SMA mapping is empty
while last close and date are still returned. -/
theorem C4_get_sma_and_last_price :
    (get_sma_and_last_price none defaultLengths = ⟨none, [], none⟩) ∧
    (get_sma_and_last_price (some []) defaultLengths = ⟨none, [], none⟩) ∧
    (∀ bars : List Bar, bars ≠ [] →
      ((sortBars bars).Perm bars ∧ (sortBars bars).Sorted barLE) ∧
      (∃ last, (sortBars bars).getLast? = some last ∧ last ∈ bars ∧
        (∀ b ∈ bars, b.date ≤ last.date) ∧
        get_sma_and_last_price (some bars) defaultLengths =
          ⟨some last.close,
           defaultLengths.filterMap fun l =>
             if l ≤ bars.length then some (l, smaOf ((sortBars bars).map Bar.close) l)
             else none,
           some last.date⟩) ∧
      (∀ w v, ((get_sma_and_last_price (some bars) defaultLengths).smas.lookup w = some v) ↔
        (w ∈ defaultLengths ∧ w ≤ bars.length ∧
          v = smaOf ((sortBars bars).map Bar.close) w)) ∧
      (bars.length < 50 →
        (get_sma_and_last_price (some bars) defaultLengths).smas = [] ∧
        (get_sma_and_last_price (some bars) defaultLengths).lastPrice.isSome = true ∧
        (get_sma_and_last_price (some bars) defaultLengths).lastBarDate.isSome = true)) := by
  refine ⟨rfl, rfl, ?_⟩
  intro bars hne
  have hsort := List.perm_insertionSort barLE bars
  have hsorted := List.sorted_insertionSort barLE bars
  have hlen : (sortBars bars).length = bars.length := hsort.length_eq
  have hsne : sortBars bars ≠ [] := by
    intro h
    rw [h] at hlen
    cases bars with
    | nil => exact hne rfl
    | cons x t => simp at hlen
  have hlast : (sortBars bars).getLast? = some ((sortBars bars).getLast hsne) :=
    List.getLast?_eq_getLast _ hsne
  set last := (sortBars bars).getLast hsne with hlastdef
  have hmem : last ∈ bars := hsort.subset (List.getLast_mem hsne)
  have hmax : ∀ b ∈ bars, b.date ≤ last.date := by
    intro b hb
    exact sorted_le_getLast hsorted hlast b (hsort.mem_iff.mpr hb)
  have heq : get_sma_and_last_price (some bars) defaultLengths =
      ⟨some last.close,
       defaultLengths.filterMap fun l =>
         if l ≤ bars.length then some (l, smaOf ((sortBars bars).map Bar.close) l)
         else none,
       some last.date⟩ := by
    simp only [get_sma_and_last_price]
    rw [if_neg hne]
    simp only [hlast, hlen, Option.map_some']
  refine ⟨⟨hsort, hsorted⟩, ⟨last, hlast, hmem, hmax, heq⟩, ?_, ?_⟩
  · intro w v
    rw [heq]
    exact lookup_windows bars.length _ defaultLengths w v
  · intro hlt
    rw [heq]
    refine ⟨?_, rfl, rfl⟩
    simp only [defaultLengths, List.filterMap_cons, List.filterMap_nil]
    rw [if_neg (by omega), if_neg (by omega), if_neg (by omega)]

/-- Witness for C4 on a single bar: fewer than 50 bars yields an empty SMA
mapping but a present last price and last bar date. -/
theorem C4_get_sma_and_last_price_witness :
    (get_sma_and_last_price (some [⟨0, 1⟩]) defaultLengths).smas = [] ∧
    (get_sma_and_last_price (some [⟨0, 1⟩]) defaultLengths).lastPrice.isSome = true := by
  have h := (C4_get_sma_and_last_price.2.2 [⟨0, (1 : ℚ)⟩] (by simp)).2.2.2 (by simp)
  exact ⟨h.1, h.2.1⟩

theorem connectLoop_head (o : ℕ → ℤ → ConnOutcome) (m a : ℕ) (cid : ℤ) :
    (connectLoop o (m + 1) a cid).attempts[0]? = some (a, cid) := by
  simp only [connectLoop]
  by_cases ho : o a cid = ConnOutcome.ok
  · rw [if_pos ho]
    simp
  · rw [if_neg ho]
    simp

/-- C5 counterexample: the code does not distinguish failure causes.  With
every attempt timing out and base clientId 7, attempt 1 times out yet
attempt 2 presents clientId 8, not the same identity 7 — so "attempts that
merely timed out retry the same identity" is false as a statement about the
following attempt's identity. -/
theorem C5_connect_counterexample :
    allTimeout 1 7 = ConnOutcome.timeout ∧
    (connect_ib allTimeout 7).attempts[1]? = some (1, 7) ∧
    (connect_ib allTimeout 7).attempts[2]? = some (2, 8) ∧
    ((8 : ℤ) ≠ 7) := by
  refine ⟨rfl, ?_, ?_, by decide⟩
  · decide
  · decide

/-- C5 (amended): `connect_ib` makes at most 10 attempts starting from the
base clientId; the candidate clientId increments by one after every
second attempt regardless of the failure's cause (attempt `j` presents
`base + j / 2`, so each identity is tried twice in a row); each failed
attempt sleeps `2 + attemptIndex` seconds; on success the working identity is
recorded and the loop stops; the fatal error (result `none`) occurs iff all
10 attempts fail. -/
theorem C5_connect_identity_fallback (o : ℕ → ℤ → ConnOutcome) (base : ℤ) :
    (connect_ib o base).attempts.length ≤ 10 ∧
    (connect_ib o base).attempts[0]? = some (0, base) ∧
    (∀ j k c, (connect_ib o base).attempts[j]? = some (k, c) →
      k = j ∧ c = base + ((j / 2 : ℕ) : ℤ)) ∧
    ((connect_ib o base).result = none ↔
      ∀ k, k < 10 → o k (base + ((k / 2 : ℕ) : ℤ)) ≠ ConnOutcome.ok) ∧
    (∀ c, (connect_ib o base).result = some c →
      ∃ k, (connect_ib o base).attempts.getLast? = some (k, c) ∧
        o k c = ConnOutcome.ok ∧
        ∀ p ∈ (connect_ib o base).attempts.dropLast, o p.1 p.2 ≠ ConnOutcome.ok) ∧
    (connect_ib o base).sleeps =
      (if (connect_ib o base).result.isSome then (connect_ib o base).attempts.dropLast
        else (connect_ib o base).attempts).map (fun p => 2 + p.1) := by
  refine ⟨connectLoop_length_le o 10 0 base, connectLoop_head o 9 0 base, ?_, ?_,
    fun c h => connectLoop_result_some o 10 0 base c h, connectLoop_sleeps o 10 0 base⟩
  · intro j k c h
    obtain ⟨hk, hc⟩ := connectLoop_attempts_get o 10 0 base j k c h
    refine ⟨by omega, ?_⟩
    rw [hc]
    have : (0 + j) / 2 - 0 / 2 = j / 2 := by omega
    rw [this]
  · constructor
    · intro hnone k hk
      obtain ⟨hlen, hall⟩ := connectLoop_result_none o 10 0 base hnone
      have hk' : k < (connect_ib o base).attempts.length := by
        rw [show (connect_ib o base).attempts.length = 10 from hlen]
        exact hk
      have hp : ∃ pr, (connect_ib o base).attempts[k]? = some pr :=
        ⟨_, List.getElem?_eq_getElem hk'⟩
      obtain ⟨⟨k1, c1⟩, hp⟩ := hp
      obtain ⟨hkk, hcc⟩ := connectLoop_attempts_get o 10 0 base k k1 c1 hp
      have hmem : (k1, c1) ∈ (connect_ib o base).attempts := List.getElem?_mem hp
      have hfail := hall _ hmem
      intro hok
      apply hfail
      have h1 : k1 = k := by omega
      have h2 : c1 = base + ((k / 2 : ℕ) : ℤ) := by
        rw [hcc]
        have : (0 + k) / 2 - 0 / 2 = k / 2 := by omega
        rw [this]
      rw [show ((k1, c1) : ℕ × ℤ).1 = k1 from rfl, show ((k1, c1) : ℕ × ℤ).2 = c1 from rfl,
        h1, h2]
      exact hok
    · intro hall
      cases hres : (connect_ib o base).result with
      | none => rfl
      | some c =>
        obtain ⟨k, hlast, hok, _⟩ := connectLoop_result_some o 10 0 base c hres
        have hmem : (k, c) ∈ (connect_ib o base).attempts :=
          List.mem_of_mem_getLast? hlast
        obtain ⟨j, hjlt, hj⟩ := List.mem_iff_getElem.mp hmem
        have hj' : (connect_ib o base).attempts[j]? = some (k, c) := by
          rw [List.getElem?_eq_getElem hjlt, hj]
        obtain ⟨hk, hc⟩ := connectLoop_attempts_get o 10 0 base j k c hj'
        have hjlt10 : j < 10 := lt_of_lt_of_le hjlt (connectLoop_length_le o 10 0 base)
        refine absurd hok (?_)
        have hkj : k = j := by omega
        have hcf : c = base + ((j / 2 : ℕ) : ℤ) := by
          rw [hc]
          have : (0 + j) / 2 - 0 / 2 = j / 2 := by omega
          rw [this]
        rw [hkj, hcf]
        exact hall j hjlt10

/-- Witness for C5: with every attempt timing out from base 7, the loop
exhausts all 10 attempts and signals the fatal error. -/
theorem C5_connect_identity_fallback_witness :
    (connect_ib allTimeout 7).result = none :=
  (C5_connect_identity_fallback allTimeout 7).2.2.2.1.mpr (by decide)

theorem recordOf_eq_none (t : String) (res : SmaFetchResult) :
    recordOf t res = none ↔ res.smas = [] := by
  unfold recordOf
  by_cases h : res.smas = []
  · simp [h]
  · simp [h]

/-- C6: the rebuild raises the empty-cache error iff zero iterations produced
a non-empty SMA result; on that error the persisted cache is left unchanged
(the raise precedes the write), and on success the new table is written with
no error. -/
theorem C6_empty_cache_error (fetch : ℕ → String → SmaFetchResult)
    (tickers : List String) (prev : Option (List CacheRecord)) :
    ((∃ e, build_sma_cache fetch tickers = Except.error e) ↔
      ∀ pr ∈ tickers.enum, (fetch pr.1 pr.2).smas = []) ∧
    ((∃ e, build_sma_cache fetch tickers = Except.error e) →
      rebuild_persist fetch tickers prev = (prev, true)) ∧
    (∀ table, build_sma_cache fetch tickers = Except.ok table →
      rebuild_persist fetch tickers prev = (some table, false)) := by
  have hrec : (buildRecords fetch tickers = []) ↔
      ∀ pr ∈ tickers.enum, (fetch pr.1 pr.2).smas = [] := by
    unfold buildRecords
    rw [List.filterMap_eq_nil_iff]
    constructor
    · intro h pr hpr
      exact (recordOf_eq_none pr.2 (fetch pr.1 pr.2)).mp (h pr hpr)
    · intro h pr hpr
      exact (recordOf_eq_none pr.2 (fetch pr.1 pr.2)).mpr (h pr hpr)
  have herr : (∃ e, build_sma_cache fetch tickers = Except.error e) ↔
      buildRecords fetch tickers = [] := by
    unfold build_sma_cache
    by_cases h : buildRecords fetch tickers = []
    · rw [if_pos h]
      exact ⟨fun _ => h, fun _ => ⟨"No SMAs computed; cache would be empty.", rfl⟩⟩
    · rw [if_neg h]
      constructor
      · rintro ⟨e, he⟩
        exact absurd he (by simp)
      · intro hc
        exact absurd hc h
  refine ⟨herr.trans hrec, ?_, ?_⟩
  · rintro ⟨e, he⟩
    unfold rebuild_persist
    rw [he]
  · intro table htable
    unfold rebuild_persist
    rw [htable]

/-- Witness for C6: a universe whose single ticker always fails leaves the
previous cache file untouched and reports the error. -/
theorem C6_empty_cache_error_witness :
    rebuild_persist fetchAlwaysEmpty ["A"] none = (none, true) :=
  (C6_empty_cache_error fetchAlwaysEmpty ["A"] none).2.1
    ⟨"No SMAs computed; cache would be empty.", rfl⟩

/-- C8: under any interleaving of disconnect and worker-termination events at
the lock's atomicity, at most one reconnect loop is ever active and the
in-progress flag is set exactly while one is; `_schedule_reconnect` is a
no-op when the flag is set; the worker's delay sequence is
{2, 5, 10, 20, 30, 60, 90, 120}, its sleeps follow that sequence in order,
and it terminates only by first success or, having slept every delay, by
exhausting the sequence. -/
theorem C8_single_reconnect_loop (events : List SupEvent)
    (tryConn : ℕ → ℤ → Bool) (cid : ℤ) :
    ((supRun events).active ≤ 1 ∧
      ((supRun events).inProgress = true ↔ (supRun events).active = 1)) ∧
    (∀ s : SupState, s.inProgress = true → schedule_reconnect s = s) ∧
    reconnectDelays = [2, 5, 10, 20, 30, 60, 90, 120] ∧
    ((reconnectWorker tryConn cid 0 reconnectDelays).2 =
      reconnectDelays.take (reconnectWorker tryConn cid 0 reconnectDelays).2.length) ∧
    ((reconnectWorker tryConn cid 0 reconnectDelays).1 = none →
      (reconnectWorker tryConn cid 0 reconnectDelays).2 = reconnectDelays) := by
  refine ⟨foldl_supStep_inv events supInit ⟨by simp [supInit], by simp [supInit]⟩, ?_, rfl,
    (reconnectWorker_sleeps_spec tryConn cid reconnectDelays 0).1,
    (reconnectWorker_sleeps_spec tryConn cid reconnectDelays 0).2⟩
  intro s hs
  unfold schedule_reconnect
  rw [if_pos hs]

/-- Witness for C8: two overlapping disconnects yield one active loop, and a
never-succeeding worker sleeps the whole delay sequence. -/
theorem C8_single_reconnect_loop_witness :
    (supRun [SupEvent.disconnect, SupEvent.disconnect]).active ≤ 1 ∧
    schedule_reconnect ⟨true, 1⟩ = ⟨true, 1⟩ ∧
    (reconnectWorker tryNever 5 0 reconnectDelays).2 = reconnectDelays := by
  have h := C8_single_reconnect_loop [SupEvent.disconnect, SupEvent.disconnect] tryNever 5
  exact ⟨h.1.1, h.2.1 ⟨true, 1⟩ rfl, h.2.2.2.2 rfl⟩

/-- C10: with the default windows, every row the rebuild writes has a
non-null SMA50 — a ticker is kept iff its SMA mapping is non-empty, and since
50 is the smallest window a non-empty mapping implies at least 50 bars and
hence an SMA50 entry — while SMA100 and SMA200 can be null (witnessed by a
50-bar history). -/
theorem get_sma_default_lookup50 (h : Option (List Bar))
    (hne : (get_sma_and_last_price h defaultLengths).smas ≠ []) :
    ((get_sma_and_last_price h defaultLengths).smas.lookup 50).isSome = true := by
  cases h with
  | none => exact absurd rfl hne
  | some bars =>
    by_cases hb : bars = []
    · subst hb
      exact absurd rfl hne
    · simp only [get_sma_and_last_price] at hne ⊢
      rw [if_neg hb] at hne ⊢
      simp only [] at hne ⊢
      by_cases h50 : 50 ≤ (sortBars bars).length
      · have hsome := (lookup_windows (sortBars bars).length
          (fun l => smaOf ((sortBars bars).map Bar.close) l) defaultLengths 50
          (smaOf ((sortBars bars).map Bar.close) 50)).mpr
          ⟨by simp [defaultLengths], h50, rfl⟩
        rw [hsome]
        rfl
      · exfalso
        apply hne
        simp only [defaultLengths, List.filterMap_cons, List.filterMap_nil]
        rw [if_neg h50, if_neg (by omega), if_neg (by omega)]

theorem C10_sma50_always_present :
    (∀ (hist : ℕ → String → Option (List Bar)) (tickers : List String)
      (table : List CacheRecord),
      build_sma_cache (histFetch hist) tickers = Except.ok table →
      ∀ r ∈ table, r.sma50.isSome = true) ∧
    (∃ (hist : ℕ → String → Option (List Bar)) (tickers : List String)
      (table : List CacheRecord),
      build_sma_cache (histFetch hist) tickers = Except.ok table ∧
      ∃ r ∈ table, r.sma100 = none ∧ r.sma200 = none) := by
  constructor
  · intro hist tickers table htable r hr
    obtain ⟨-, htab⟩ := build_sma_cache_ok _ tickers table htable
    subst htab
    have hrec : r ∈ buildRecords (histFetch hist) tickers :=
      dropDupFirstAux_subset _ [] r hr
    unfold buildRecords at hrec
    rw [List.mem_filterMap] at hrec
    obtain ⟨pr, _, hro⟩ := hrec
    rw [recordOf_eq_some] at hro
    obtain ⟨hsm, hrq⟩ := hro
    have hkey := get_sma_default_lookup50 (hist pr.1 pr.2) hsm
    rw [hrq]
    exact hkey
  · refine ⟨histFifty, ["A"],
      [⟨"A", some (smaOf ((sortBars bars50).map Bar.close) 50), none, none, some 49⟩], rfl,
      ⟨"A", some (smaOf ((sortBars bars50).map Bar.close) 50), none, none, some 49⟩,
      List.mem_singleton.mpr rfl, rfl, rfl⟩

/-- Witness for C10: the row written for a 50-bar history has SMA50 present. -/
theorem C10_sma50_always_present_witness :
    (CacheRecord.sma50
      ⟨"A", some (smaOf ((sortBars bars50).map Bar.close) 50), none, none, some 49⟩).isSome
      = true :=
  C10_sma50_always_present.1 histFifty ["A"]
    [⟨"A", some (smaOf ((sortBars bars50).map Bar.close) 50), none, none, some 49⟩] rfl
    ⟨"A", some (smaOf ((sortBars bars50).map Bar.close) 50), none, none, some 49⟩
    (List.mem_singleton.mpr rfl)

end TradingBot
